import Mathlib

/-!
# Verification of the mase-phi-hpc bootstrap resampling engine

Shallow embedding of `src/bootstrap/bootstrap.py`: the per-mutation
depth/VAF resampling engine (`bootstrap_va_dt`), the VAF prefilter
(`apply_vaf_prefiltering`), the quality gate and output plumbing of
`main`, and the per-replicate output writer
(`write_bootstrapped_ssm_file`).

Randomness is modelled by oracles: `draws k` is the batch of
`bootstrap_num` multinomial depth vectors produced by the `k`-th call to
`np.random.multinomial` (rows are replicates, columns are samples, i.e.
the replicate-major layout of the Python variable
`new_Depth_list_transposed`; the Python function transposes to
sample-major just before returning, so the source's returned entry
`[i][j]` is entry `(j, i)` here), and `binom i j n p` is the value of
`np.random.binomial(n, p)` drawn for sample `i` in replicate `j`.
Properties of the multinomial distribution that hold with probability
one (each draw sums to the number of trials; a category with probability
zero receives zero) are supplied as hypotheses on the oracle.
Depths are `ℕ`; VAF floats are modelled as `ℚ`.
-/

namespace MasePhi

/-- One parsed mutation row: per-sample reference counts (column `a`)
and per-sample total depths (column `d`), as parsed integers. -/
structure Mutation where
  a : List ℤ
  d : List ℤ
deriving DecidableEq

/-- Validity check on one sample, from `apply_vaf_prefiltering`
(`bootstrap.py` line 176): a `(ref_count, total_depth)` pair is skipped
when `total_depth < 0 or ref_count < 0 or ref_count > total_depth`. -/
def validSample (ref_count total_depth : ℤ) : Bool :=
  decide (¬ (total_depth < 0 ∨ ref_count < 0 ∨ ref_count > total_depth))

/-- VAF of one sample (`bootstrap.py` lines 180-184): `0` when the
depth is `0`, otherwise `(total_depth - ref_count) / total_depth`. -/
def sampleVAF (ref_count total_depth : ℤ) : ℚ :=
  if total_depth = 0 then 0
  else ((total_depth : ℚ) - (ref_count : ℚ)) / (total_depth : ℚ)

/-- The list `vafs` built by `apply_vaf_prefiltering` for one mutation:
VAFs of exactly the valid samples, in order. -/
def mutationVAFs (m : Mutation) : List ℚ :=
  (m.a.zip m.d).filterMap
    (fun p => if validSample p.1 p.2 then some (sampleVAF p.1 p.2) else none)

/-- Keep-decision of `apply_vaf_prefiltering` for one mutation:
the sample lists agree in length (otherwise the row is skipped with a
warning), at least one valid sample was found, and every computed VAF is
strictly below the threshold ("any_high" strategy). -/
def keepMutation (threshold : ℚ) (m : Mutation) : Bool :=
  m.a.length == m.d.length &&
    !(mutationVAFs m).isEmpty &&
    (mutationVAFs m).all (fun v => decide (v < threshold))

/-- Model of `apply_vaf_prefiltering` (`bootstrap.py` lines 131-202) on parsed
rows: keeps exactly the mutations passing `keepMutation`, preserving
order. -/
def apply_vaf_prefiltering (input_ssm_df : List Mutation) (threshold : ℚ) :
    List Mutation :=
  input_ssm_df.filter (keepMutation threshold)

/-- Floor substitution on one replicate row (`bootstrap.py` lines
74-78): each cell that is `0` while the corresponding original depth is
positive is forced to `1`; all other cells are unchanged. -/
def floorSubstituteRow (Depth_array : List ℕ) (row : List ℕ) : List ℕ :=
  List.zipWith (fun d x => if x = 0 ∧ 0 < d then 1 else x) Depth_array row

/-- Floor substitution applied to the whole batch of replicate rows. -/
def floorSubstitute (Depth_array : List ℕ) (m : List (List ℕ)) :
    List (List ℕ) :=
  m.map (floorSubstituteRow Depth_array)

/-- Model of `np.any(new_Depth_list_transposed == 0)`: some cell of the batch is
zero. -/
def hasZeroCell (m : List (List ℕ)) : Bool :=
  m.any (fun row => row.any (fun x => x == 0))

/-- The `while True` retry loop of `bootstrap_va_dt` (`bootstrap.py`
lines 57-79) in the case `total_depth_sum ≠ 0`, entered with `count`
already incremented to its current value (the Python loop increments
first, so the first iteration runs with `count = 1`).  Returns the final
value of `count`, whether floor substitution fired, and the resulting
batch of replicate depth rows. -/
def depthRetryLoop (Depth_array : List ℕ) (draws : ℕ → List (List ℕ))
    (count : ℕ) : ℕ × Bool × List (List ℕ) :=
  if hasZeroCell (draws count) then
    if 10 ≤ count then
      (count, true, floorSubstitute Depth_array (draws count))
    else
      depthRetryLoop Depth_array draws (count + 1)
  else
    (count, false, draws count)
termination_by 10 - count
decreasing_by simp_wf; omega

/-- Model of `bootstrap_va_dt` (`bootstrap.py` lines 24-101).  Returns the pair
(bootstrapped VAFs, bootstrapped depths), both in replicate-major
layout: row `j` is replicate `j`, column `i` is sample `i` (see the
file-level comment on orientation).  When the total depth is `0` the
depth batch is all zeros and no multinomial draw happens; otherwise the
retry loop runs starting at `count = 1`.  Each VAF cell is `0` when its
resampled depth is `0` and otherwise `binom i j depth vaf / depth`. -/
def bootstrap_va_dt (AF_list : List ℚ) (Depth_list : List ℕ)
    (bootstrap_num : ℕ) (draws : ℕ → List (List ℕ))
    (binom : ℕ → ℕ → ℕ → ℚ → ℕ) :
    List (List ℚ) × List (List ℕ) :=
  let new_Depth_list_transposed : List (List ℕ) :=
    if Depth_list.sum = 0 then
      List.replicate bootstrap_num (List.replicate Depth_list.length 0)
    else
      (depthRetryLoop Depth_list draws 1).2.2
  let AF_list_update : List (List ℚ) :=
    (List.range bootstrap_num).map (fun j =>
      (List.range AF_list.length).map (fun i =>
        let current_depth := (new_Depth_list_transposed.getD j []).getD i 0
        if current_depth = 0 then 0
        else ((binom i j current_depth (AF_list.getD i 0) : ℚ) /
          (current_depth : ℚ))))
  (AF_list_update, new_Depth_list_transposed)

/-- Model of `np.round` on a rational: round half to even (IEEE 754 / numpy
semantics). -/
def np_round (q : ℚ) : ℤ :=
  if q - ⌊q⌋ < 1/2 then ⌊q⌋
  else if 1/2 < q - ⌊q⌋ then ⌊q⌋ + 1
  else if ⌊q⌋ % 2 = 0 then ⌊q⌋ else ⌊q⌋ + 1

/-- Reference-count derivation of one output cell in
`process_and_bootstrap_ssm` (`bootstrap.py` lines 281-287):
`new_ref = depth - round(vaf * depth)`, then clamped below by `0`
(`np.maximum`) and above by `depth` (`np.minimum`). -/
def new_ref_count (vaf : ℚ) (depth : ℕ) : ℤ :=
  min (max ((depth : ℤ) - np_round (vaf * (depth : ℚ))) 0) (depth : ℤ)

/-- Observable side effects of `main` after prefiltering, in order of
occurrence.  `exitFatal` models `sys.exit(1)`; paths are lists of
components. -/
inductive Effect where
  | exitFatal : Effect
  | mkdir : List String → Effect
  | writeFile : List String → Effect
deriving DecidableEq

/-- Path of the persisted filtered table (`bootstrap.py` lines
367-374): when the output directory is named `bootstraps` with parent
named `initial` (the standard pipeline layout), the file goes next to
the output directory, inside its parent; otherwise it goes inside the
output directory itself. -/
def filtered_ssm_path (output_dir : List String) : List String :=
  if output_dir.getLast? = some "bootstraps" ∧
      output_dir.dropLast.getLast? = some "initial" then
    output_dir.dropLast ++ ["ssm_filtered.txt"]
  else
    output_dir ++ ["ssm_filtered.txt"]

/-- The replicate subdirectory, named after the 1-based index, created by
`write_bootstrapped_ssm_file` under the output directory. -/
def bootstrapSubDir (output_dir : List String) (k : ℕ) : List String :=
  output_dir ++ ["bootstrap" ++ toString k]

/-- Side effects of `process_and_bootstrap_ssm`'s output phase
(`bootstrap.py` lines 302-305): for each 1-based replicate index,
`write_bootstrapped_ssm_file` creates the subdirectory, writes `ssm.txt`
and touches `cnv.txt`. -/
def replicateEffects (output_dir : List String) (num_bootstraps : ℕ) :
    List Effect :=
  (List.range num_bootstraps).flatMap (fun i =>
    [Effect.mkdir (bootstrapSubDir output_dir (i + 1)),
     Effect.writeFile (bootstrapSubDir output_dir (i + 1) ++ ["ssm.txt"]),
     Effect.writeFile (bootstrapSubDir output_dir (i + 1) ++ ["cnv.txt"])])

/-- The fixed quality-gate minimum `min_mutations = 5`
(`bootstrap.py` line 352). -/
def min_mutations : ℕ := 5

/-- Effect trace of `main` from the quality gate onwards
(`bootstrap.py` lines 347-380), given the prefiltered table: an empty
table or one below `min_mutations` rows exits fatally; otherwise the
filtered table is written to `filtered_ssm_path` and then the replicate
outputs are produced. -/
def mainAfterPrefilter (filtered_ssm_df : List Mutation)
    (output_dir : List String) (num_bootstraps : ℕ) : List Effect :=
  if filtered_ssm_df.isEmpty then
    [Effect.exitFatal]
  else if filtered_ssm_df.length < min_mutations then
    [Effect.exitFatal]
  else
    Effect.writeFile (filtered_ssm_path output_dir) ::
      replicateEffects output_dir num_bootstraps

/-- The fixed SSM column order (`bootstrap.py` line 121). -/
def ssm_columns : List String := ["id", "gene", "a", "d", "mu_r", "mu_v"]

/-- Header of each written replicate table (tab-separated). -/
def headerLine : String := String.intercalate "\t" ssm_columns

/-- One data line of a written replicate table: the row's values in the
fixed column order.  A row is a key-value record (a Python dict); the
lookup fails — pandas raises a `KeyError` on the column selection — when
a key is missing. -/
def rowLine (row : List (String × String)) : Option String :=
  (ssm_columns.mapM (fun c => row.lookup c)).map
    (fun vs => String.intercalate "\t" vs)

/-- What `write_bootstrapped_ssm_file` leaves on disk for one
replicate: the subdirectory name, the lines of `ssm.txt` and the content
of `cnv.txt`. -/
structure WrittenReplicate where
  dirName : String
  ssmLines : List String
  cnvContent : String
deriving DecidableEq

/-- Model of `write_bootstrapped_ssm_file` (`bootstrap.py` lines 103-129): an
empty mutation list yields a header-only table (the explicit
empty-DataFrame branch); a non-empty list is materialised with the
columns reordered to `ssm_columns`, which fails precisely when some row
lacks one of the keys.  The companion `cnv.txt` is always empty. -/
def write_bootstrapped_ssm_file
    (mutations_for_this_bootstrap_iter : List (List (String × String)))
    (bootstrap_iteration_num : ℕ) : Option WrittenReplicate :=
  let dir := "bootstrap" ++ toString bootstrap_iteration_num
  if mutations_for_this_bootstrap_iter.isEmpty then
    some ⟨dir, [headerLine], ""⟩
  else
    (mutations_for_this_bootstrap_iter.mapM rowLine).map
      (fun body => ⟨dir, headerLine :: body, ""⟩)

/-! ## Helper lemmas -/

theorem zip_self_eq_map {α : Type} (l : List α) :
    l.zip l = l.map (fun r => (r, r)) := by
  induction l with
  | nil => rfl
  | cons a t ih => simp [List.zip_cons_cons, ih]

theorem zip_map_self {α : Type} (f : α → α) (l : List α) :
    (l.map f).zip l = l.map (fun r => (f r, r)) := by
  induction l with
  | nil => rfl
  | cons a t ih => simp [List.zip_cons_cons, ih]

theorem hasZeroCell_eq_false_iff (m : List (List ℕ)) :
    hasZeroCell m = false ↔ ∀ r ∈ m, ∀ x ∈ r, x ≠ 0 := by
  simp only [hasZeroCell, List.any_eq_false, List.any_eq_true, beq_iff_eq,
    not_exists, not_and]

theorem getD_mem_of_lt (l : List ℕ) (i : ℕ) (hi : i < l.length) :
    l.getD i 0 ∈ l := by
  rw [List.getD_eq_getElem l 0 hi]
  exact List.getElem_mem hi

/-- If the total depth is positive, the depth component of
`bootstrap_va_dt` is the result of the retry loop started at
`count = 1`. -/
theorem bootstrap_va_dt_snd (AF_list : List ℚ) (Depth_list : List ℕ)
    (bootstrap_num : ℕ) (draws : ℕ → List (List ℕ))
    (binom : ℕ → ℕ → ℕ → ℚ → ℕ) (hne : Depth_list.sum ≠ 0) :
    (bootstrap_va_dt AF_list Depth_list bootstrap_num draws binom).2 =
      (depthRetryLoop Depth_list draws 1).2.2 := by
  simp [bootstrap_va_dt, hne]

/-- Structure of the retry loop: started at `count = c ≤ 10`, it stops
at the first attempt `k` whose batch has no zero cell, or reaches
attempt `10` and applies floor substitution to that last batch. -/
theorem depthRetryLoop_spec (Depth_array : List ℕ)
    (draws : ℕ → List (List ℕ)) :
    ∀ n c, 10 - c = n → c ≤ 10 →
      ∃ k, c ≤ k ∧ k ≤ 10 ∧
        ((hasZeroCell (draws k) = false ∧
          depthRetryLoop Depth_array draws c = (k, false, draws k)) ∨
         (hasZeroCell (draws k) = true ∧ k = 10 ∧
          depthRetryLoop Depth_array draws c =
            (10, true, floorSubstitute Depth_array (draws 10)))) := by
  intro n
  induction n with
  | zero =>
    intro c hc hc10
    have hc' : c = 10 := by omega
    subst hc'
    cases hz : hasZeroCell (draws 10) with
    | false =>
      refine ⟨10, le_refl _, le_refl _, Or.inl ⟨hz, ?_⟩⟩
      rw [depthRetryLoop]
      simp [hz]
    | true =>
      refine ⟨10, le_refl _, le_refl _, Or.inr ⟨hz, rfl, ?_⟩⟩
      rw [depthRetryLoop]
      simp [hz]
  | succ n ih =>
    intro c hc hc10
    cases hz : hasZeroCell (draws c) with
    | false =>
      refine ⟨c, le_refl _, hc10, Or.inl ⟨hz, ?_⟩⟩
      rw [depthRetryLoop]
      simp [hz]
    | true =>
      have hlt : ¬ (10 ≤ c) := by omega
      have heq : depthRetryLoop Depth_array draws c =
          depthRetryLoop Depth_array draws (c + 1) := by
        rw [depthRetryLoop]
        simp [hz, hlt]
      obtain ⟨k, hk1, hk2, hcase⟩ := ih (c + 1) (by omega) (by omega)
      exact ⟨k, by omega, hk2, by rwa [heq]⟩

/-! ## C5: zero-depth degeneracy -/

theorem replicate_getElem?_getD (B S j i : ℕ) :
    ((List.replicate B (List.replicate S (0 : ℕ)))[j]?.getD [])[i]?.getD 0
      = 0 := by
  rw [List.getElem?_replicate]
  by_cases h : j < B
  · simp only [if_pos h, Option.getD_some, List.getElem?_replicate]
    by_cases h2 : i < S <;> simp [h2]
  · simp [h]

/-- C5 — Zero-depth degeneracy: for a mutation whose depths sum to 0,
`bootstrap_va_dt` returns (totally, without any failure) an all-zero
replicate-by-sample depth matrix and a VAF matrix of the right shape in
which every entry is exactly `0`. -/
theorem zero_depth_degeneracy (AF_list : List ℚ) (Depth_list : List ℕ)
    (bootstrap_num : ℕ) (draws : ℕ → List (List ℕ))
    (binom : ℕ → ℕ → ℕ → ℚ → ℕ) (h0 : Depth_list.sum = 0) :
    (bootstrap_va_dt AF_list Depth_list bootstrap_num draws binom).2 =
      List.replicate bootstrap_num (List.replicate Depth_list.length 0) ∧
    (bootstrap_va_dt AF_list Depth_list bootstrap_num draws binom).1.length =
      bootstrap_num ∧
    ∀ row ∈ (bootstrap_va_dt AF_list Depth_list bootstrap_num draws binom).1,
      row.length = AF_list.length ∧ ∀ q ∈ row, q = 0 := by
  have hv : (bootstrap_va_dt AF_list Depth_list bootstrap_num draws binom).1 =
      List.replicate bootstrap_num (List.replicate AF_list.length (0 : ℚ)) := by
    simp [bootstrap_va_dt, h0, replicate_getElem?_getD]
  refine ⟨by simp [bootstrap_va_dt, h0], by rw [hv]; simp, ?_⟩
  intro row hrow
  rw [hv] at hrow
  have hrow' := List.eq_of_mem_replicate hrow
  subst hrow'
  refine ⟨by simp, ?_⟩
  intro q hq
  exact List.eq_of_mem_replicate hq

/-- Witness for C5 at a concrete input. -/
theorem zero_depth_degeneracy_witness :
    ([0, 0] : List ℕ).sum = 0 ∧
    ((bootstrap_va_dt [1/2, 1/3] [0, 0] 2 (fun _ => [[5, 5]])
        (fun _ _ _ _ => 7)).2 =
      List.replicate 2 (List.replicate ([0, 0] : List ℕ).length 0) ∧
    (bootstrap_va_dt [1/2, 1/3] [0, 0] 2 (fun _ => [[5, 5]])
        (fun _ _ _ _ => 7)).1.length = 2 ∧
    ∀ row ∈ (bootstrap_va_dt [1/2, 1/3] [0, 0] 2 (fun _ => [[5, 5]])
        (fun _ _ _ _ => 7)).1,
      row.length = ([1/2, 1/3] : List ℚ).length ∧ ∀ q ∈ row, q = 0) :=
  ⟨rfl, zero_depth_degeneracy [1/2, 1/3] [0, 0] 2 (fun _ => [[5, 5]])
    (fun _ _ _ _ => 7) rfl⟩

/-! ## C3: prefilter correctness -/

/-- C3 counterexample: the mutation with a single sample
`(a, d) = (2, 1)` (reference count exceeding depth, so no valid sample)
is removed by the prefilter although it has no valid sample with
`VAF ≥ τ`. -/
theorem vaf_prefilter_removed_counterexample :
    apply_vaf_prefiltering [⟨[2], [1]⟩] (9/10) = [] ∧
    ¬ ∃ p ∈ ([(2 : ℤ)].zip [(1 : ℤ)]),
      validSample p.1 p.2 = true ∧ (9/10 : ℚ) ≤ sampleVAF p.1 p.2 := by
  constructor
  · rfl
  · decide

/-- C3 (amended) — Prefilter correctness: every mutation kept by
`apply_vaf_prefiltering` has `VAF < τ` in all of its valid samples, and
every removed mutation either has mismatched count-list lengths, or has
no valid sample at all, or has at least one valid sample with
`VAF ≥ τ`. -/
theorem vaf_prefilter_correct (threshold : ℚ)
    (input_ssm_df : List Mutation) :
    (∀ m ∈ apply_vaf_prefiltering input_ssm_df threshold,
      ∀ p ∈ m.a.zip m.d, validSample p.1 p.2 = true →
        sampleVAF p.1 p.2 < threshold) ∧
    (∀ m ∈ input_ssm_df,
      m ∉ apply_vaf_prefiltering input_ssm_df threshold →
      m.a.length ≠ m.d.length ∨
      (∀ p ∈ m.a.zip m.d, validSample p.1 p.2 = false) ∨
      (∃ p ∈ m.a.zip m.d, validSample p.1 p.2 = true ∧
        threshold ≤ sampleVAF p.1 p.2)) := by
  constructor
  · intro m hm p hp hvalid
    have hkeep : keepMutation threshold m = true :=
      (List.mem_filter.1 hm).2
    rw [keepMutation, Bool.and_eq_true, Bool.and_eq_true] at hkeep
    have hall := hkeep.2
    rw [List.all_eq_true] at hall
    have hmemv : sampleVAF p.1 p.2 ∈ mutationVAFs m := by
      rw [mutationVAFs]
      exact List.mem_filterMap.2 ⟨p, hp, by rw [if_pos hvalid]⟩
    exact of_decide_eq_true (hall _ hmemv)
  · intro m hm hnot
    have hkeep : keepMutation threshold m = false := by
      cases h : keepMutation threshold m
      · rfl
      · exact absurd (List.mem_filter.2 ⟨hm, h⟩) hnot
    rw [keepMutation] at hkeep
    rcases Bool.and_eq_false_iff.1 hkeep with h12 | h3
    · rcases Bool.and_eq_false_iff.1 h12 with h1 | h2
      · left
        intro hlen
        rw [hlen] at h1
        simp at h1
      · right; left
        intro p hp
        cases hv : validSample p.1 p.2
        · rfl
        · exfalso
          have hmemv : sampleVAF p.1 p.2 ∈ mutationVAFs m := by
            rw [mutationVAFs]
            exact List.mem_filterMap.2 ⟨p, hp, by rw [if_pos hv]⟩
          have h2' : mutationVAFs m = [] := by
            cases hb : (mutationVAFs m).isEmpty
            · rw [hb] at h2
              simp at h2
            · exact List.isEmpty_iff.1 hb
          rw [h2'] at hmemv
          simp at hmemv
    · right; right
      rw [List.all_eq_false] at h3
      obtain ⟨v, hv, hvq⟩ := h3
      rw [mutationVAFs] at hv
      obtain ⟨p, hp, hpv⟩ := List.mem_filterMap.1 hv
      by_cases hval : validSample p.1 p.2 = true
      · rw [if_pos hval] at hpv
        refine ⟨p, hp, hval, ?_⟩
        have := of_decide_eq_false (Bool.not_eq_true _ ▸ hvq : decide (v < threshold) = false)
        rw [Option.some_inj] at hpv
        rw [hpv]
        exact le_of_not_lt this
      · rw [if_neg hval] at hpv
        exact absurd hpv (by simp)

/-- Witness for C3 at a concrete input: a kept mutation's valid sample
has VAF below the threshold. -/
theorem vaf_prefilter_correct_witness :
    (⟨[2], [10]⟩ : Mutation) ∈
      apply_vaf_prefiltering [⟨[2], [10]⟩] (9/10) ∧
    ((2 : ℤ), (10 : ℤ)) ∈ ([(2 : ℤ)].zip [(10 : ℤ)]) ∧
    validSample 2 10 = true ∧
    sampleVAF 2 10 < 9/10 := by
  have hmem : (⟨[2], [10]⟩ : Mutation) ∈
      apply_vaf_prefiltering [⟨[2], [10]⟩] (9/10) := by
    refine List.mem_filter.2 ⟨by simp, ?_⟩
    norm_num [keepMutation, mutationVAFs, validSample, sampleVAF]
    exact Option.some_ne_none _
  exact ⟨hmem, by decide, by decide,
    (vaf_prefilter_correct (9/10) [⟨[2], [10]⟩]).1 ⟨[2], [10]⟩ hmem
      (2, 10) (by decide) (by decide)⟩

/-! ## C1: depth conservation -/

/-- C1 — Depth conservation: when the input depths have positive sum
and every multinomial draw sums to that total (the defining property of
a multinomial sample of `total_depth` trials), there is a final attempt
`k ∈ [1, 10]` such that every output replicate row that equals its
positionally corresponding row of attempt `k` — i.e. every replicate the
floor substitution left untouched — sums exactly to the input total
depth. -/
theorem depth_conservation (AF_list : List ℚ) (Depth_list : List ℕ)
    (bootstrap_num : ℕ) (draws : ℕ → List (List ℕ))
    (binom : ℕ → ℕ → ℕ → ℚ → ℕ)
    (htot : 0 < Depth_list.sum)
    (hsum : ∀ k, ∀ r ∈ draws k, r.sum = Depth_list.sum) :
    ∃ k, 1 ≤ k ∧ k ≤ 10 ∧
      ∀ p ∈ ((bootstrap_va_dt AF_list Depth_list bootstrap_num draws
          binom).2).zip (draws k),
        p.1 = p.2 → p.1.sum = Depth_list.sum := by
  have hne : Depth_list.sum ≠ 0 := by omega
  have hout := bootstrap_va_dt_snd AF_list Depth_list bootstrap_num draws
    binom hne
  obtain ⟨k, hk1, hk10, hcase⟩ :=
    depthRetryLoop_spec Depth_list draws (10 - 1) 1 rfl (by omega)
  rcases hcase with ⟨hz, heq⟩ | ⟨hz, hk, heq⟩
  · refine ⟨k, hk1, hk10, ?_⟩
    intro p hp hpe
    rw [hout, heq] at hp
    rw [show ((k, false, draws k) : ℕ × Bool × List (List ℕ)).2.2 =
      draws k from rfl, zip_self_eq_map] at hp
    obtain ⟨r, hr, hpr⟩ := List.mem_map.1 hp
    rw [← hpr]
    exact hsum k r hr
  · refine ⟨10, by omega, le_refl _, ?_⟩
    intro p hp hpe
    rw [hout, heq] at hp
    rw [show ((10, true, floorSubstitute Depth_list (draws 10)) :
        ℕ × Bool × List (List ℕ)).2.2 =
      floorSubstitute Depth_list (draws 10) from rfl] at hp
    rw [floorSubstitute, zip_map_self] at hp
    obtain ⟨r, hr, hpr⟩ := List.mem_map.1 hp
    rw [← hpr] at hpe ⊢
    simp only at hpe ⊢
    rw [hpe]
    exact hsum 10 r hr

/-- Witness for C1 at a concrete input. -/
theorem depth_conservation_witness :
    0 < ([2, 1] : List ℕ).sum ∧
    (∃ k, 1 ≤ k ∧ k ≤ 10 ∧
      ∀ p ∈ ((bootstrap_va_dt [0, 0] [2, 1] 2 (fun _ => [[2, 1], [1, 2]])
          (fun _ _ _ _ => 0)).2).zip [[2, 1], [1, 2]],
        p.1 = p.2 → p.1.sum = ([2, 1] : List ℕ).sum) :=
  ⟨by decide, depth_conservation [0, 0] [2, 1] 2 (fun _ => [[2, 1], [1, 2]])
    (fun _ _ _ _ => 0) (by decide) (fun k r hr => by
      simp only at hr
      fin_cases hr <;> rfl)⟩

/-! ## C2: retry-floor bound -/

/-- Cell-level description of floor substitution: for an in-range index
and rows of matching length, the substituted cell is `1` exactly when
the drawn cell was `0` at a position of positive original depth, and the
drawn cell otherwise. -/
theorem floorSubstituteRow_getD (D : List ℕ) :
    ∀ (r : List ℕ) (i : ℕ), i < D.length → r.length = D.length →
      (floorSubstituteRow D r).getD i 0 =
        if r.getD i 0 = 0 ∧ 0 < D.getD i 0 then 1 else r.getD i 0 := by
  induction D with
  | nil =>
    intro r i hi _
    simp at hi
  | cons d ds ih =>
    intro r i hi hlen
    cases r with
    | nil => simp at hlen
    | cons x xs =>
      cases i with
      | zero => simp [floorSubstituteRow, And.comm]
      | succ i =>
        simp only [floorSubstituteRow, List.zipWith_cons_cons,
          List.getD_cons_succ]
        exact ih xs i (by simpa using hi) (by simpa using hlen)

/-- C2 — Retry-floor bound: for positive total depth, the retry loop
stops after at most 10 multinomial attempts (it is a total function, so
it always terminates), and — assuming each draw has rows of the right
length with zeros wherever the original depth is zero, the
probability-one behaviour of the multinomial — every cell of the output
whose original depth was positive is at least 1, while every cell whose
original depth was 0 is 0 in every replicate. -/
theorem retry_floor_bound (AF_list : List ℚ) (Depth_list : List ℕ)
    (bootstrap_num : ℕ) (draws : ℕ → List (List ℕ))
    (binom : ℕ → ℕ → ℕ → ℚ → ℕ)
    (htot : 0 < Depth_list.sum)
    (hrows : ∀ k, ∀ r ∈ draws k, r.length = Depth_list.length)
    (hzero : ∀ k, ∀ r ∈ draws k, ∀ i, i < Depth_list.length →
      Depth_list.getD i 0 = 0 → r.getD i 0 = 0) :
    (depthRetryLoop Depth_list draws 1).1 ≤ 10 ∧
    ∀ r ∈ (bootstrap_va_dt AF_list Depth_list bootstrap_num draws binom).2,
      ∀ i, i < Depth_list.length →
        (0 < Depth_list.getD i 0 → 1 ≤ r.getD i 0) ∧
        (Depth_list.getD i 0 = 0 → r.getD i 0 = 0) := by
  have hne : Depth_list.sum ≠ 0 := by omega
  have hout := bootstrap_va_dt_snd AF_list Depth_list bootstrap_num draws
    binom hne
  obtain ⟨k, hk1, hk10, hcase⟩ :=
    depthRetryLoop_spec Depth_list draws (10 - 1) 1 rfl (by omega)
  rcases hcase with ⟨hz, heq⟩ | ⟨hz, hk, heq⟩
  · refine ⟨by rw [heq]; exact hk10, ?_⟩
    intro r hr i hi
    rw [hout, heq] at hr
    have hr' : r ∈ draws k := hr
    have hlen := hrows k r hr'
    have hnz := (hasZeroCell_eq_false_iff (draws k)).1 hz r hr'
    constructor
    · intro _
      have := hnz (r.getD i 0) (getD_mem_of_lt r i (by omega))
      omega
    · exact hzero k r hr' i hi
  · refine ⟨by rw [heq], ?_⟩
    intro r hr i hi
    rw [hout, heq] at hr
    have hr' : r ∈ floorSubstitute Depth_list (draws 10) := hr
    obtain ⟨r0, hr0, hrr⟩ := List.mem_map.1 hr'
    have hlen := hrows 10 r0 hr0
    rw [← hrr, floorSubstituteRow_getD Depth_list r0 i hi hlen]
    constructor
    · intro hpos
      by_cases h0 : r0.getD i 0 = 0
      · rw [if_pos ⟨h0, hpos⟩]
      · rw [if_neg (by rintro ⟨h1, h2⟩; exact h0 h1)]
        omega
    · intro hD0
      have h0 := hzero 10 r0 hr0 i hi hD0
      rw [if_neg (by rintro ⟨h1, h2⟩; omega)]
      exact h0

/-- Witness for C2 at a concrete input. -/
theorem retry_floor_bound_witness :
    0 < ([2, 0] : List ℕ).sum ∧
    ((depthRetryLoop [2, 0] (fun _ => [[2, 0]]) 1).1 ≤ 10 ∧
    ∀ r ∈ (bootstrap_va_dt [0, 0] [2, 0] 1 (fun _ => [[2, 0]])
        (fun _ _ _ _ => 0)).2,
      ∀ i, i < ([2, 0] : List ℕ).length →
        (0 < ([2, 0] : List ℕ).getD i 0 → 1 ≤ r.getD i 0) ∧
        (([2, 0] : List ℕ).getD i 0 = 0 → r.getD i 0 = 0)) :=
  ⟨by decide, retry_floor_bound [0, 0] [2, 0] 1 (fun _ => [[2, 0]])
    (fun _ _ _ _ => 0) (by decide)
    (fun k r hr => by
      simp only at hr
      fin_cases hr
      rfl)
    (fun k r hr => by
      simp only at hr
      fin_cases hr
      decide)⟩

/-! ## C9: depth-sum invariant -/

/-- Floor substitution never decreases a row sum. -/
theorem le_floorSubstituteRow_sum (D : List ℕ) :
    ∀ r : List ℕ, D.length = r.length →
      r.sum ≤ (floorSubstituteRow D r).sum := by
  induction D with
  | nil =>
    intro r hlen
    cases r with
    | nil => simp [floorSubstituteRow]
    | cons x xs => simp at hlen
  | cons d ds ih =>
    intro r hlen
    cases r with
    | nil => simp at hlen
    | cons x xs =>
      simp only [floorSubstituteRow, List.zipWith_cons_cons, List.sum_cons]
      have h1 : x ≤ if x = 0 ∧ 0 < d then 1 else x := by
        split
        · omega
        · exact le_refl x
      have h2 := ih xs (by simpa using hlen)
      rw [floorSubstituteRow] at h2
      omega

/-- Floor substitution increases a row sum by at most one per cell. -/
theorem floorSubstituteRow_sum_le (D : List ℕ) :
    ∀ r : List ℕ, D.length = r.length →
      (floorSubstituteRow D r).sum ≤ r.sum + r.length := by
  induction D with
  | nil =>
    intro r hlen
    cases r with
    | nil => simp [floorSubstituteRow]
    | cons x xs => simp at hlen
  | cons d ds ih =>
    intro r hlen
    cases r with
    | nil => simp at hlen
    | cons x xs =>
      simp only [floorSubstituteRow, List.zipWith_cons_cons, List.sum_cons,
        List.length_cons]
      have h1 : (if x = 0 ∧ 0 < d then 1 else x) ≤ x + 1 := by
        split
        · omega
        · omega
      have h2 := ih xs (by simpa using hlen)
      rw [floorSubstituteRow] at h2
      omega

/-- On a row of positive sum, floor substitution leaves at least one
cell untouched, so it adds at most `length - 1` in total. -/
theorem floorSubstituteRow_sum_lt (D : List ℕ) :
    ∀ r : List ℕ, D.length = r.length → 0 < r.sum →
      (floorSubstituteRow D r).sum + 1 ≤ r.sum + r.length := by
  induction D with
  | nil =>
    intro r hlen hpos
    cases r with
    | nil => simp at hpos
    | cons x xs => simp at hlen
  | cons d ds ih =>
    intro r hlen hpos
    cases r with
    | nil => simp at hlen
    | cons x xs =>
      simp only [floorSubstituteRow, List.zipWith_cons_cons, List.sum_cons,
        List.length_cons]
      by_cases hx : x = 0
      · have hxs : 0 < xs.sum := by
          simp only [List.sum_cons, hx] at hpos
          omega
        have hhead : (if x = 0 ∧ 0 < d then 1 else x) ≤ 1 := by
          split
          · omega
          · omega
        have h2 := ih xs (by simpa using hlen) hxs
        rw [floorSubstituteRow] at h2
        omega
      · have hhead : (if x = 0 ∧ 0 < d then 1 else x) = x := by
          rw [if_neg (by rintro ⟨h1, _⟩; exact hx h1)]
        have h2 := floorSubstituteRow_sum_le ds xs (by simpa using hlen)
        rw [floorSubstituteRow] at h2
        omega

/-- C9 — Implicit depth-sum invariant: for positive total depth, under
the multinomial draw properties (each row sums to the total and has
length `S`), every output replicate row sums to at least the total and
to at most the total plus `S - 1`. -/
theorem depth_sum_bounds (AF_list : List ℚ) (Depth_list : List ℕ)
    (bootstrap_num : ℕ) (draws : ℕ → List (List ℕ))
    (binom : ℕ → ℕ → ℕ → ℚ → ℕ)
    (htot : 0 < Depth_list.sum)
    (hrows : ∀ k, ∀ r ∈ draws k, r.length = Depth_list.length)
    (hsum : ∀ k, ∀ r ∈ draws k, r.sum = Depth_list.sum) :
    ∀ r ∈ (bootstrap_va_dt AF_list Depth_list bootstrap_num draws binom).2,
      Depth_list.sum ≤ r.sum ∧
        r.sum ≤ Depth_list.sum + (Depth_list.length - 1) := by
  have hne : Depth_list.sum ≠ 0 := by omega
  have hout := bootstrap_va_dt_snd AF_list Depth_list bootstrap_num draws
    binom hne
  obtain ⟨k, hk1, hk10, hcase⟩ :=
    depthRetryLoop_spec Depth_list draws (10 - 1) 1 rfl (by omega)
  intro r hr
  rcases hcase with ⟨hz, heq⟩ | ⟨hz, hk, heq⟩
  · rw [hout, heq] at hr
    have hr' : r ∈ draws k := hr
    have := hsum k r hr'
    omega
  · rw [hout, heq] at hr
    have hr' : r ∈ floorSubstitute Depth_list (draws 10) := hr
    obtain ⟨r0, hr0, hrr⟩ := List.mem_map.1 hr'
    have hlen := (hrows 10 r0 hr0).symm
    have hsum0 := hsum 10 r0 hr0
    have hpos : 0 < r0.sum := by omega
    have hS : 0 < r0.length := by
      cases r0 with
      | nil => simp at hpos
      | cons x xs => simp
    have h1 := le_floorSubstituteRow_sum Depth_list r0 hlen
    have h2 := floorSubstituteRow_sum_lt Depth_list r0 hlen hpos
    rw [hrr] at h1 h2
    constructor
    · omega
    · have : r0.length = Depth_list.length := by omega
      omega

/-- Witness for C9 at a concrete input. -/
theorem depth_sum_bounds_witness :
    0 < ([2, 1] : List ℕ).sum ∧
    ∀ r ∈ (bootstrap_va_dt [0, 0] [2, 1] 1 (fun _ => [[3, 0]])
        (fun _ _ _ _ => 0)).2,
      ([2, 1] : List ℕ).sum ≤ r.sum ∧
        r.sum ≤ ([2, 1] : List ℕ).sum + (([2, 1] : List ℕ).length - 1) :=
  ⟨by decide, depth_sum_bounds [0, 0] [2, 1] 1 (fun _ => [[3, 0]])
    (fun _ _ _ _ => 0) (by decide)
    (fun k r hr => by
      simp only at hr
      fin_cases hr
      rfl)
    (fun k r hr => by
      simp only at hr
      fin_cases hr
      rfl)⟩

/-! ## C10: systematic retry exhaustion -/

/-- If every attempt's batch has a zero cell, the retry loop never
exits early: from any start `c ≤ 10` it runs to attempt 10 and applies
floor substitution there. -/
theorem depthRetryLoop_all_zero (Depth_array : List ℕ)
    (draws : ℕ → List (List ℕ))
    (hz : ∀ k, hasZeroCell (draws k) = true) :
    ∀ n c, 10 - c = n → c ≤ 10 →
      depthRetryLoop Depth_array draws c =
        (10, true, floorSubstitute Depth_array (draws 10)) := by
  intro n
  induction n with
  | zero =>
    intro c hc hc10
    have hc' : c = 10 := by omega
    subst hc'
    rw [depthRetryLoop]
    simp [hz 10]
  | succ n ih =>
    intro c hc hc10
    have hlt : ¬ (10 ≤ c) := by omega
    rw [depthRetryLoop]
    simp only [hz c, if_true, if_neg hlt]
    exact ih (c + 1) (by omega) (by omega)

/-- C10 — Implicit systematic retry exhaustion: if some sample has
original depth 0 while the total depth is positive, then (since the
multinomial gives that sample probability 0 and hence count 0 in every
row of every attempt) every attempt's batch contains a zero cell, so
the loop performs all 10 draw attempts and applies floor substitution,
and the original-zero sample stays at depth 0 in every output
replicate. -/
theorem systematic_retry_exhaustion (AF_list : List ℚ)
    (Depth_list : List ℕ) (bootstrap_num : ℕ)
    (draws : ℕ → List (List ℕ)) (binom : ℕ → ℕ → ℕ → ℚ → ℕ)
    (htot : 0 < Depth_list.sum) (hB : 0 < bootstrap_num)
    (hlen : ∀ k, (draws k).length = bootstrap_num)
    (hrows : ∀ k, ∀ r ∈ draws k, r.length = Depth_list.length)
    (hzero : ∀ k, ∀ r ∈ draws k, ∀ i, i < Depth_list.length →
      Depth_list.getD i 0 = 0 → r.getD i 0 = 0)
    (i0 : ℕ) (hi0 : i0 < Depth_list.length)
    (hD0 : Depth_list.getD i0 0 = 0) :
    depthRetryLoop Depth_list draws 1 =
      (10, true, floorSubstitute Depth_list (draws 10)) ∧
    (bootstrap_va_dt AF_list Depth_list bootstrap_num draws binom).2 =
      floorSubstitute Depth_list (draws 10) ∧
    ∀ r ∈ (bootstrap_va_dt AF_list Depth_list bootstrap_num draws binom).2,
      r.getD i0 0 = 0 := by
  have hne : Depth_list.sum ≠ 0 := by omega
  have hz : ∀ k, hasZeroCell (draws k) = true := by
    intro k
    have hnil : draws k ≠ [] := by
      intro h
      have := hlen k
      rw [h] at this
      simp at this
      omega
    obtain ⟨r, hr⟩ := List.exists_mem_of_ne_nil (draws k) hnil
    have hri := hzero k r hr i0 hi0 hD0
    have hlen' := hrows k r hr
    by_contra hfalse
    have hff : hasZeroCell (draws k) = false := by
      cases h : hasZeroCell (draws k)
      · rfl
      · exact absurd h hfalse
    have := (hasZeroCell_eq_false_iff (draws k)).1 hff r hr (r.getD i0 0)
      (getD_mem_of_lt r i0 (by omega))
    exact this hri
  have hloop := depthRetryLoop_all_zero Depth_list draws hz (10 - 1) 1 rfl
    (by omega)
  have hout := bootstrap_va_dt_snd AF_list Depth_list bootstrap_num draws
    binom hne
  have hout2 : (bootstrap_va_dt AF_list Depth_list bootstrap_num draws
      binom).2 = floorSubstitute Depth_list (draws 10) := by
    rw [hout, hloop]
  refine ⟨hloop, hout2, ?_⟩
  intro r hr
  rw [hout2] at hr
  obtain ⟨r0, hr0, hrr⟩ := List.mem_map.1 hr
  have hlen' := hrows 10 r0 hr0
  have h0 := hzero 10 r0 hr0 i0 hi0 hD0
  rw [← hrr, floorSubstituteRow_getD Depth_list r0 i0 hi0 hlen']
  rw [if_neg (by rintro ⟨h1, h2⟩; omega)]
  exact h0

/-- Witness for C10 at a concrete input. -/
theorem systematic_retry_exhaustion_witness :
    0 < ([2, 0] : List ℕ).sum ∧
    (depthRetryLoop [2, 0] (fun _ => [[2, 0]]) 1 =
      (10, true, floorSubstitute [2, 0] [[2, 0]]) ∧
    (bootstrap_va_dt [0, 0] [2, 0] 1 (fun _ => [[2, 0]])
        (fun _ _ _ _ => 0)).2 = floorSubstitute [2, 0] [[2, 0]] ∧
    ∀ r ∈ (bootstrap_va_dt [0, 0] [2, 0] 1 (fun _ => [[2, 0]])
        (fun _ _ _ _ => 0)).2,
      r.getD 1 0 = 0) :=
  ⟨by decide, systematic_retry_exhaustion [0, 0] [2, 0] 1
    (fun _ => [[2, 0]]) (fun _ _ _ _ => 0) (by decide) (by decide)
    (fun k => rfl)
    (fun k r hr => by
      simp only at hr
      fin_cases hr
      rfl)
    (fun k r hr => by
      simp only at hr
      fin_cases hr
      decide)
    1 (by decide) (by decide)⟩

/-! ## C6: count bounds -/

/-- C6 — Count bounds: the emitted reference count
`depth - round(vaf * depth)`, clamped below by `0` and above by `depth`,
always lies in `[0, depth]`. -/
theorem count_bounds (vaf : ℚ) (depth : ℕ) :
    0 ≤ new_ref_count vaf depth ∧ new_ref_count vaf depth ≤ (depth : ℤ) := by
  unfold new_ref_count
  exact ⟨le_min (le_max_right _ _) (Int.natCast_nonneg depth),
    min_le_right _ _⟩

/-! ## C4: quality gate boundary -/

/-- The effect `sys.exit(1)` never occurs among the per-replicate output effects. -/
theorem exitFatal_not_mem_replicateEffects (output_dir : List String)
    (num_bootstraps : ℕ) :
    Effect.exitFatal ∉ replicateEffects output_dir num_bootstraps := by
  intro h
  rw [replicateEffects] at h
  obtain ⟨i, hi, hmem⟩ := List.mem_flatMap.1 h
  simp at hmem

/-- When the quality gate passes, the trace is the filtered-table write
followed by the replicate outputs. -/
theorem mainAfterPrefilter_pass (filtered_ssm_df : List Mutation)
    (output_dir : List String) (num_bootstraps : ℕ)
    (hpass : min_mutations ≤ filtered_ssm_df.length) :
    mainAfterPrefilter filtered_ssm_df output_dir num_bootstraps =
      Effect.writeFile (filtered_ssm_path output_dir) ::
        replicateEffects output_dir num_bootstraps := by
  have hm : min_mutations = 5 := rfl
  cases filtered_ssm_df with
  | nil =>
    rw [hm] at hpass
    simp at hpass
  | cons m ms =>
    have h5 : ¬ ((m :: ms).length < min_mutations) := by
      omega
    rw [mainAfterPrefilter, if_neg (by simp), if_neg h5]

/-- C4 — Quality gate boundary: fewer than 5 surviving mutations make
`main` exit fatally with no other effect (in particular no replicate
directory is created); exactly 5 surviving mutations proceed without a
fatal exit, creating every replicate directory. -/
theorem quality_gate_boundary (filtered_ssm_df : List Mutation)
    (output_dir : List String) (num_bootstraps : ℕ) :
    (filtered_ssm_df.length < min_mutations →
      mainAfterPrefilter filtered_ssm_df output_dir num_bootstraps =
        [Effect.exitFatal]) ∧
    (filtered_ssm_df.length = min_mutations →
      Effect.exitFatal ∉
        mainAfterPrefilter filtered_ssm_df output_dir num_bootstraps ∧
      ∀ k, 1 ≤ k → k ≤ num_bootstraps →
        Effect.mkdir (bootstrapSubDir output_dir k) ∈
          mainAfterPrefilter filtered_ssm_df output_dir num_bootstraps) := by
  constructor
  · intro hlt
    by_cases he : filtered_ssm_df.isEmpty
    · simp [mainAfterPrefilter, he]
    · simp [mainAfterPrefilter, he, hlt]
  · intro hq
    have htr := mainAfterPrefilter_pass filtered_ssm_df output_dir
      num_bootstraps (le_of_eq hq.symm)
    rw [htr]
    constructor
    · intro hmem
      rcases List.mem_cons.1 hmem with h | h
      · exact Effect.noConfusion h
      · exact exitFatal_not_mem_replicateEffects output_dir num_bootstraps h
    · intro k hk1 hkB
      refine List.mem_cons_of_mem _ ?_
      rw [replicateEffects]
      refine List.mem_flatMap.2 ⟨k - 1, List.mem_range.2 (by omega), ?_⟩
      have hk : k - 1 + 1 = k := by omega
      rw [hk]
      simp

/-- Witness for C4 at concrete inputs: 4 mutations exit fatally, 5
proceed and create the replicate directories. -/
theorem quality_gate_boundary_witness :
    ((List.replicate 4 (⟨[1], [10]⟩ : Mutation)).length < min_mutations ∧
      mainAfterPrefilter (List.replicate 4 ⟨[1], [10]⟩) ["out"] 2 =
        [Effect.exitFatal]) ∧
    ((List.replicate 5 (⟨[1], [10]⟩ : Mutation)).length = min_mutations ∧
      (Effect.exitFatal ∉
        mainAfterPrefilter (List.replicate 5 ⟨[1], [10]⟩) ["out"] 2 ∧
      ∀ k, 1 ≤ k → k ≤ 2 →
        Effect.mkdir (bootstrapSubDir ["out"] k) ∈
          mainAfterPrefilter (List.replicate 5 ⟨[1], [10]⟩) ["out"] 2)) :=
  ⟨⟨by decide,
    (quality_gate_boundary (List.replicate 4 ⟨[1], [10]⟩) ["out"] 2).1
      (by decide)⟩,
   ⟨by decide,
    (quality_gate_boundary (List.replicate 5 ⟨[1], [10]⟩) ["out"] 2).2
      (by decide)⟩⟩

/-! ## C7: output writer totality -/

/-- Mapping lookups over a column list succeeds when every lookup
succeeds, returning one value per column. -/
theorem mapM_lookup_some (row : List (String × String)) :
    ∀ cols : List String, (∀ c ∈ cols, (row.lookup c).isSome) →
      ∃ vs, cols.mapM (fun c => row.lookup c) = some vs ∧
        vs.length = cols.length := by
  intro cols
  induction cols with
  | nil => exact fun _ => ⟨[], rfl, rfl⟩
  | cons c cs ih =>
    intro h
    obtain ⟨v, hv⟩ :=
      Option.isSome_iff_exists.1 (h c (List.mem_cons_self _ _))
    obtain ⟨vs, hvs, hlen⟩ := ih (fun x hx => h x (List.mem_cons_of_mem _ hx))
    refine ⟨v :: vs, ?_, by simp [hlen]⟩
    rw [List.mapM_cons, hv, hvs]
    rfl

/-- Mapping `rowLine` over the rows succeeds when every row has every column,
returning one line per row. -/
theorem mapM_rowLine_some :
    ∀ muts : List (List (String × String)),
      (∀ row ∈ muts, ∀ c ∈ ssm_columns, (row.lookup c).isSome) →
      ∃ body, muts.mapM rowLine = some body ∧
        body.length = muts.length := by
  intro muts
  induction muts with
  | nil => exact fun _ => ⟨[], rfl, rfl⟩
  | cons row rows ih =>
    intro h
    obtain ⟨vs, hvs, _⟩ :=
      mapM_lookup_some row ssm_columns (h row (List.mem_cons_self _ _))
    obtain ⟨body, hbody, hlen⟩ :=
      ih (fun r hr => h r (List.mem_cons_of_mem _ hr))
    refine ⟨String.intercalate "\t" vs :: body, ?_, by simp [hlen]⟩
    rw [List.mapM_cons]
    rw [show rowLine row = some (String.intercalate "\t" vs) by
      rw [rowLine, hvs]; rfl]
    rw [hbody]
    rfl

/-- C7 — Output writer totality: for every replicate index and every
mutation list whose rows carry all six SSM columns — including the
empty list — `write_bootstrapped_ssm_file` succeeds, producing the
`k`-keyed subdirectory name, a table headed by the fixed column order
with one line per mutation (header-only when the list is empty), and an
empty companion cnv file. -/
theorem output_writer_totality (bootstrap_iteration_num : ℕ)
    (muts : List (List (String × String)))
    (h : ∀ row ∈ muts, ∀ c ∈ ssm_columns, (row.lookup c).isSome) :
    ∃ w, write_bootstrapped_ssm_file muts bootstrap_iteration_num =
        some w ∧
      w.dirName = "bootstrap" ++ toString bootstrap_iteration_num ∧
      w.ssmLines.head? = some headerLine ∧
      w.ssmLines.length = muts.length + 1 ∧
      w.cnvContent = "" ∧
      (muts = [] → w.ssmLines = [headerLine]) := by
  cases hm : muts with
  | nil =>
    refine ⟨⟨"bootstrap" ++ toString bootstrap_iteration_num,
      [headerLine], ""⟩, ?_, rfl, rfl, rfl, rfl, fun _ => rfl⟩
    rw [write_bootstrapped_ssm_file]
    rfl
  | cons row rows =>
    rw [← hm]
    obtain ⟨body, hbody, hlen⟩ := mapM_rowLine_some muts h
    refine ⟨⟨"bootstrap" ++ toString bootstrap_iteration_num,
      headerLine :: body, ""⟩, ?_, rfl, rfl, by simp [hlen], rfl,
      fun hnil => by rw [hnil] at hm; exact List.noConfusion hm⟩
    rw [write_bootstrapped_ssm_file, if_neg (by rw [hm]; simp), hbody]
    rfl

/-- Witness for C7 at a concrete input: the empty replicate list. -/
theorem output_writer_totality_witness :
    ∃ w, write_bootstrapped_ssm_file [] 3 = some w ∧
      w.dirName = "bootstrap" ++ toString 3 ∧
      w.ssmLines.head? = some headerLine ∧
      w.ssmLines.length = ([] : List (List (String × String))).length + 1 ∧
      w.cnvContent = "" ∧
      (([] : List (List (String × String))) = [] →
        w.ssmLines = [headerLine]) :=
  output_writer_totality 3 [] (fun row hr => by simp at hr)

/-! ## C8: filtered-table persistence -/

/-- C8 counterexample: for the output directory `data/out` (which does
not match the standard `…/initial/bootstraps` layout) the filtered
table is written inside the output directory itself, not to a sibling
path derived from its parent. -/
theorem filtered_path_counterexample :
    (mainAfterPrefilter (List.replicate 5 ⟨[1], [10]⟩) ["data", "out"]
        1).head? =
      some (Effect.writeFile ["data", "out", "ssm_filtered.txt"]) ∧
    (["data", "out", "ssm_filtered.txt"] : List String) ≠
      ["data"].dropLast ++ ["ssm_filtered.txt"] ∧
    (["data", "out", "ssm_filtered.txt"] : List String) ≠
      ["data", "out"].dropLast ++ ["ssm_filtered.txt"] := by
  refine ⟨?_, by decide, by decide⟩
  rw [mainAfterPrefilter_pass _ _ _ (by decide)]
  rw [show filtered_ssm_path ["data", "out"] =
    ["data", "out", "ssm_filtered.txt"] from by decide]
  rfl

/-- C8 (amended) — Filtered-table persistence: on every run that passes
the quality gate, the post-prefilter table is written exactly once,
as the very first effect (before any replicate output); its path is the
parent-derived sibling `ssm_filtered.txt` when the output directory
matches the standard `…/initial/bootstraps` layout, and lies inside the
output directory itself otherwise. -/
theorem filtered_table_persistence (filtered_ssm_df : List Mutation)
    (output_dir : List String) (num_bootstraps : ℕ)
    (hpass : min_mutations ≤ filtered_ssm_df.length) :
    (mainAfterPrefilter filtered_ssm_df output_dir num_bootstraps).head? =
      some (Effect.writeFile (filtered_ssm_path output_dir)) ∧
    (mainAfterPrefilter filtered_ssm_df output_dir num_bootstraps).count
      (Effect.writeFile (filtered_ssm_path output_dir)) = 1 ∧
    (filtered_ssm_path output_dir =
        output_dir.dropLast ++ ["ssm_filtered.txt"] ∨
      filtered_ssm_path output_dir =
        output_dir ++ ["ssm_filtered.txt"]) := by
  have htr := mainAfterPrefilter_pass filtered_ssm_df output_dir
    num_bootstraps hpass
  have hlenfp : (filtered_ssm_path output_dir).length ≤
      output_dir.length + 1 := by
    rw [filtered_ssm_path]
    split
    · simp
    · simp
  have hnotmem : Effect.writeFile (filtered_ssm_path output_dir) ∉
      replicateEffects output_dir num_bootstraps := by
    intro hmem
    rw [replicateEffects] at hmem
    obtain ⟨i, hi, hmem2⟩ := List.mem_flatMap.1 hmem
    have hsublen : (bootstrapSubDir output_dir (i + 1)).length =
        output_dir.length + 1 := by
      simp [bootstrapSubDir]
    rcases List.mem_cons.1 hmem2 with h | h
    · exact Effect.noConfusion h
    · rcases List.mem_cons.1 h with h' | h'
      · have hpath : filtered_ssm_path output_dir =
            bootstrapSubDir output_dir (i + 1) ++ ["ssm.txt"] := by
          injection h' with hh
        have := congrArg List.length hpath
        simp [hsublen] at this
        omega
      · rcases List.mem_cons.1 h' with h'' | h''
        · have hpath : filtered_ssm_path output_dir =
              bootstrapSubDir output_dir (i + 1) ++ ["cnv.txt"] := by
            injection h'' with hh
          have := congrArg List.length hpath
          simp [hsublen] at this
          omega
        · simp at h''
  refine ⟨by rw [htr]; rfl, ?_, ?_⟩
  · rw [htr, List.count_cons_self,
      List.count_eq_zero.2 hnotmem]
  · rw [filtered_ssm_path]
    split
    · left
      rfl
    · right
      rfl

/-- Witness for C8 at a concrete input with the standard layout. -/
theorem filtered_table_persistence_witness :
    min_mutations ≤ (List.replicate 5 (⟨[1], [10]⟩ : Mutation)).length ∧
    ((mainAfterPrefilter (List.replicate 5 ⟨[1], [10]⟩)
        ["p1", "initial", "bootstraps"] 1).head? =
      some (Effect.writeFile
        (filtered_ssm_path ["p1", "initial", "bootstraps"])) ∧
    (mainAfterPrefilter (List.replicate 5 ⟨[1], [10]⟩)
        ["p1", "initial", "bootstraps"] 1).count
      (Effect.writeFile
        (filtered_ssm_path ["p1", "initial", "bootstraps"])) = 1 ∧
    (filtered_ssm_path ["p1", "initial", "bootstraps"] =
        (["p1", "initial", "bootstraps"] : List String).dropLast ++
          ["ssm_filtered.txt"] ∨
      filtered_ssm_path ["p1", "initial", "bootstraps"] =
        ["p1", "initial", "bootstraps"] ++ ["ssm_filtered.txt"])) :=
  ⟨by decide, filtered_table_persistence (List.replicate 5 ⟨[1], [10]⟩)
    ["p1", "initial", "bootstraps"] 1 (by decide)⟩

end MasePhi
